import Mathlib

/-!
Verification of the Number and Text Representation core of the
Digital Representation Lab (file `src/components/NumberTextLab.jsx`).

The JavaScript code is shallowly embedded as follows.

* A JavaScript number on the integer-valued paths of the code is modelled
  as `Option Int`: `none` models a non-finite number (NaN or an infinity),
  `some n` a finite integer value.  All numeric state reachable through the
  operations modelled here is integral, so non-integral doubles never arise.
* The ECMAScript coercions ToInt32 and ToUint32, and the 32-bit operators
  `<<`, `>>>`, `^` and `&` used by the code, are modelled explicitly below.
* The ECMAScript remainder operator `%` truncates towards zero; it is
  modelled by `Int.tmod`.
* Strings are modelled as `List Char`; UTF-16 code units and bytes as `Nat`.
-/

namespace NumberTextLab

/-- ECMAScript ToUint32 of a finite integer-valued number
(`4294967296 = 2 ^ 32`, written as a literal so that terms reduce). -/
def toUint32 (n : Int) : Nat := (n % (4294967296 : Int)).toNat

/-- ECMAScript ToInt32 of a finite integer-valued number
(`2147483648 = 2 ^ 31`). -/
def toInt32 (n : Int) : Int :=
  if (n % (4294967296 : Int)) < 2147483648 then n % (4294967296 : Int)
  else n % (4294967296 : Int) - 4294967296

/-- ECMAScript `a << k` (left shift): both operands are coerced,
the shift count is taken mod 32, the result is a signed 32-bit value. -/
def jsShl (a : Int) (k : Nat) : Int := toInt32 ((toUint32 a) * 2 ^ (k % 32))

/-- ECMAScript `a >>> k` (unsigned right shift): result is a Uint32. -/
def jsShrU (a : Int) (k : Nat) : Int := ((toUint32 a) / 2 ^ (k % 32) : Nat)

/-- ECMAScript `a ^ b` (bitwise xor on the 32-bit patterns, signed result). -/
def jsXor (a b : Int) : Int := toInt32 ((toUint32 a) ^^^ (toUint32 b))

/-- ECMAScript `a & b` (bitwise and on the 32-bit patterns, signed result). -/
def jsAnd (a b : Int) : Int := toInt32 ((toUint32 a) &&& (toUint32 b))

/-- Source helper `clamp(n, min, max) = Math.min(max, Math.max(min, n))`. -/
def clamp (n mn mx : Int) : Int := min mx (max mn n)

/-- Source helper `toUnsigned(n, bits)` (the wrap-to-width function of the
spec).  `none` is non-finite input, which the code maps to 0.  A negative
value is wrapped with the ECMAScript remainder (`Int.tmod`) exactly as in
`((n % (max + 1)) + (max + 1)) % (max + 1)`; a non-negative value is
clamped into `[0, 2 ^ bits - 1]`. -/
def toUnsigned (n : Option Int) (bits : Nat) : Int :=
  match n with
  | none => 0
  | some n =>
    if n < 0 then
      ((n.tmod ((2 ^ bits - 1) + 1)) + ((2 ^ bits - 1) + 1)).tmod ((2 ^ bits - 1) + 1)
    else clamp n 0 (2 ^ bits - 1)

/-- Source helper `unsignedToSigned(u, bits)`:
`u >= max / 2 ? u - max : u` with `max = 2 ** bits`. -/
def unsignedToSigned (u : Int) (bits : Nat) : Int :=
  if u ≥ (2 ^ bits : Int) / 2 then u - 2 ^ bits else u

/-- Source memo `bytesBE`: `val = unsignedValue >>> 0`, then for
`i = totalBytes - 1` down to `0` push `(val >>> (i * 8)) & 0xff`, where
`totalBytes = Math.ceil(bits / 8) = (bits + 7) / 8`. -/
def bytesBE (unsignedValue : Int) (bits : Nat) : List Int :=
  (List.range ((bits + 7) / 8)).reverse.map
    (fun i => jsAnd (jsShrU (toUint32 unsignedValue) (i * 8)) 0xff)

/-- Source memo `bytesLE`: `[...bytesBE].reverse()`. -/
def bytesLE (unsignedValue : Int) (bits : Nat) : List Int :=
  (bytesBE unsignedValue bits).reverse

/-- Value computed by one click of bit button `i` (the UI indexes buttons
MSB first, so the mask is `1 << (bits - 1 - i)`); from the source
`toggleBit`: `setUnsignedValue(toUnsigned(unsignedValue ^ mask, bits))`. -/
def toggleBit (unsignedValue : Int) (bits i : Nat) : Int :=
  toUnsigned (some (jsXor unsignedValue (jsShl 1 (bits - 1 - i)))) bits

/-- ASCII whitespace as matched by the regular expression class and by
`trim` on the inputs occurring here. -/
def isWs (c : Char) : Bool :=
  c == ' ' || c == '\t' || c == '\n' || c == '\r'

/-- ECMAScript `String.prototype.trim()`: drop whitespace at both ends. -/
def trimChars (s : List Char) : List Char :=
  ((s.dropWhile isWs).reverse.dropWhile isWs).reverse

/-- The replacement in the source regular expression `\s+` by the empty
string in `setFromBinary`: remove every whitespace character. -/
def stripWs (s : List Char) : List Char := s.filter (fun c => ! isWs c)

/-- One digit as rendered by ECMAScript `Number.prototype.toString(b)`
(lowercase letters above 9). -/
def digitCharLower (d : Nat) : Char :=
  if d < 10 then Char.ofNat (48 + d) else Char.ofNat (87 + d)

/-- ECMAScript `String.prototype.toUpperCase()` on one ASCII character. -/
def toUpperChar (c : Char) : Char :=
  if 'a' ≤ c ∧ c ≤ 'z' then Char.ofNat (c.toNat - 32) else c

/-- ECMAScript `n.toString(b)` for a natural `n` and radix `b`: the base-b
digits, most significant first, `"0"` for 0. -/
def jsToString (n b : Nat) : List Char :=
  if n = 0 then ['0'] else (Nat.digits b n).reverse.map digitCharLower

/-- Source helper `padLeft(s, len)`: `padStart(len, "0")`. -/
def padLeft (s : List Char) (len : Nat) : List Char :=
  List.replicate (len - s.length) '0' ++ s

/-- Source memo `hexValue`:
`toHex(u, bits) = padLeft(u.toString(16).toUpperCase(), ceil(bits / 4))`. -/
def toHex (u bits : Nat) : List Char :=
  padLeft ((jsToString u 16).map toUpperChar) ((bits + 3) / 4)

/-- Source memo `binValue`: `toBin(u, bits) = padLeft(u.toString(2), bits)`. -/
def toBin (u bits : Nat) : List Char := padLeft (jsToString u 2) bits

/-- The global regular expression replacement in the source `groupEvery`:
each run of exactly `n` characters gets a space appended; a shorter final
run is left alone. -/
def groupChunks (s : List Char) (n : Nat) : List Char :=
  if h : 0 < n ∧ n ≤ s.length then
    s.take n ++ ' ' :: groupChunks (s.drop n) n
  else s
termination_by s.length
decreasing_by
  simp only [List.length_drop]
  omega

/-- Source helper `groupEvery(s, n)`: the replacement followed by `trim`. -/
def groupEvery (s : List Char) (n : Nat) : List Char :=
  trimChars (groupChunks s n)

/-- The numeric value ECMAScript `parseInt` gives to one character,
before the radix check: `0`-`9`, then letters case-insensitively. -/
def rawDigitVal (c : Char) : Option Nat :=
  if '0' ≤ c ∧ c ≤ '9' then some (c.toNat - 48)
  else if 'a' ≤ c ∧ c ≤ 'z' then some (c.toNat - 87)
  else if 'A' ≤ c ∧ c ≤ 'Z' then some (c.toNat - 55)
  else none

/-- A digit of radix `b` as accepted by `parseInt`. -/
def charDigitVal (c : Char) (b : Nat) : Option Nat :=
  match rawDigitVal c with
  | some d => if d < b then some d else none
  | none => none

/-- The digit-accumulation loop of `parseInt`: consume the longest prefix
of radix-`b` digits, most significant first. -/
def parseDigitsAux (b acc : Nat) : List Char → Nat
  | [] => acc
  | c :: cs =>
    match charDigitVal c b with
    | some d => parseDigitsAux b (acc * b + d) cs
    | none => acc

/-- ECMAScript `parseInt(s, b)` for an explicit radix `2 ≤ b ≤ 36`:
skip leading whitespace, optional sign, an optional `0x`/`0X` marker when
the radix is 16, then the longest prefix of radix-`b` digits; `none`
models `NaN` (no digits). -/
def parseIntJs (s : List Char) (b : Nat) : Option Int :=
  let s1 := s.dropWhile isWs
  let signed : Bool × List Char :=
    match s1 with
    | [] => (false, s1)
    | c :: rest =>
      if c = '-' then (true, rest)
      else if c = '+' then (false, rest)
      else (false, s1)
  let s2 := signed.2
  let s3 : List Char :=
    if b = 16 then
      match s2 with
      | c0 :: c :: rest =>
        if c0 = '0' ∧ (c = 'x' ∨ c = 'X') then rest else s2
      | _ => s2
    else s2
  match s3 with
  | [] => none
  | c :: _ =>
    match charDigitVal c b with
    | none => none
    | some _ =>
      some (if signed.1 then -(parseDigitsAux b 0 s3 : Int)
        else (parseDigitsAux b 0 s3 : Int))

/-- Source helper `parseFromBase(str, base)`: empty input is `NaN`,
otherwise `parseInt` on the trimmed string (`none` models `NaN`). -/
def parseFromBase (s : List Char) (b : Nat) : Option Int :=
  if s = [] then none else parseIntJs (trimChars s) b

/-- ECMAScript `Number(s)` restricted to non-empty strings of decimal
digits, the only shape the decimal round-trip law evaluates it on: the
denoted integer.  Other string shapes are not modelled (`none`). -/
def jsNumberOfDecimalDigits (s : List Char) : Option Int :=
  if s ≠ [] ∧ s.all Char.isDigit then some (parseDigitsAux 10 0 s) else none

/-- A challenge as stored by `makeChallenge`: `{ target: t, bits }`. -/
structure Challenge where
  target : Int
  bits : Nat
  deriving DecidableEq

/-- The `NumberTextLab` number-tab state: the `useState` hooks
`bits`, `unsignedValue`, `challenge`. -/
structure LabState where
  bits : Nat
  unsignedValue : Int
  challenge : Option Challenge
  deriving DecidableEq

/-- Initial state: `useState(8)`, `useState(65)`, `useState(null)`. -/
def initState : LabState := ⟨8, 65, none⟩

/-- The UI events that mutate the number-tab state.  A decimal input
event carries the result of `Number(str)` (`none` for non-finite); hex
and binary inputs carry the raw string; `newTargetBtn` carries the value
`Math.floor(Math.random() * 2 ** bits)` drawn by `makeChallenge`. -/
inductive Event where
  | setBitsBtn (b : Nat)
  | decimalInput (n : Option Int)
  | hexInput (s : List Char)
  | binaryInput (s : List Char)
  | sliderInput (n : Int)
  | toggleBitBtn (i : Nat)
  | newTargetBtn (t : Int)
  deriving DecidableEq

/-- Which events the rendered UI can actually deliver: the three width
buttons, a slider constrained to `[0, maxVal]` with step 1, one bit
button per rendered bit, and a random target below `2 ** bits`. -/
def validEvent (s : LabState) : Event → Bool
  | Event.setBitsBtn b => b == 8 || b == 16 || b == 32
  | Event.decimalInput _ => true
  | Event.hexInput _ => true
  | Event.binaryInput _ => true
  | Event.sliderInput n => 0 ≤ n && n ≤ 2 ^ s.bits - 1
  | Event.toggleBitBtn i => i < s.bits
  | Event.newTargetBtn t => 0 ≤ t && t < 2 ^ s.bits

/-- One step of the component.  `setFromDecimal`, `setFromHex` and
`setFromBinary` ignore non-finite parse results; `setBits(b)` changes the
width and, through the `useEffect` on `[bits]`, clears the challenge
whenever the width actually changed; `makeChallenge` stores the target
with the active width.  No step re-wraps `unsignedValue` on a width
change. -/
def step (s : LabState) : Event → LabState
  | Event.setBitsBtn b =>
    ⟨b, s.unsignedValue, if b = s.bits then s.challenge else none⟩
  | Event.decimalInput n =>
    match n with
    | some m => ⟨s.bits, toUnsigned (some m) s.bits, s.challenge⟩
    | none => s
  | Event.hexInput str =>
    match parseFromBase str 16 with
    | some m => ⟨s.bits, toUnsigned (some m) s.bits, s.challenge⟩
    | none => s
  | Event.binaryInput str =>
    match parseFromBase (stripWs str) 2 with
    | some m => ⟨s.bits, toUnsigned (some m) s.bits, s.challenge⟩
    | none => s
  | Event.sliderInput n => ⟨s.bits, n, s.challenge⟩
  | Event.toggleBitBtn i =>
    ⟨s.bits, toggleBit s.unsignedValue s.bits i, s.challenge⟩
  | Event.newTargetBtn t => ⟨s.bits, s.unsignedValue, some ⟨t, s.bits⟩⟩

/-- Source `challengeCorrect`:
`challenge && unsignedValue === challenge.target && bits === challenge.bits`. -/
def challengeCorrect (s : LabState) : Bool :=
  match s.challenge with
  | some c => s.unsignedValue == c.target && s.bits == c.bits
  | none => false

/-- States reachable from the initial state through valid UI events. -/
inductive Reachable : LabState → Prop where
  | init : Reachable initState
  | step {s : LabState} {e : Event} (hr : Reachable s)
      (hv : validEvent s e = true) : Reachable (step s e)

/-- UTF-8 encoding of one Unicode scalar value, per the canonical
bit-packing scheme used by `TextEncoder`. -/
def utf8EncodeChar (cp : Nat) : List Nat :=
  if cp ≤ 0x7F then [cp]
  else if cp ≤ 0x7FF then [0xC0 + cp / 64, 0x80 + cp % 64]
  else if cp ≤ 0xFFFF then
    [0xE0 + cp / 4096, 0x80 + cp / 64 % 64, 0x80 + cp % 64]
  else
    [0xF0 + cp / 262144, 0x80 + cp / 4096 % 64,
      0x80 + cp / 64 % 64, 0x80 + cp % 64]

/-- Source helper `utf8Bytes(str)`:
`Array.from(new TextEncoder().encode(str))`.  Text is modelled as its
sequence of code points (what the string iterator yields); the encoder
replaces a lone surrogate code point by U+FFFD before encoding. -/
def utf8Bytes (text : List Nat) : List Nat :=
  (text.map (fun cp =>
    utf8EncodeChar (if 0xD800 ≤ cp ∧ cp ≤ 0xDFFF then 0xFFFD else cp))).flatten

/-- The WHATWG UTF-8 decoder in its default non-fatal mode, as run by
`new TextDecoder().decode(...)`: well-formed sequences yield their scalar
value; malformed input yields U+FFFD for each maximal invalid subpart
(the failing byte is reconsidered as a potential lead byte), and a
truncated sequence at end of input yields one U+FFFD.  It never throws. -/
def decodeUtf8 : List Nat → List Nat
  | [] => []
  | b :: rest =>
    if b ≤ 0x7F then b :: decodeUtf8 rest
    else if 0xC2 ≤ b ∧ b ≤ 0xDF then
      match rest with
      | [] => [0xFFFD]
      | b1 :: rest1 =>
        if 0x80 ≤ b1 ∧ b1 ≤ 0xBF then
          ((b - 0xC0) * 64 + (b1 - 0x80)) :: decodeUtf8 rest1
        else 0xFFFD :: decodeUtf8 (b1 :: rest1)
    else if 0xE0 ≤ b ∧ b ≤ 0xEF then
      match rest with
      | [] => [0xFFFD]
      | b1 :: rest1 =>
        if (if b = 0xE0 then 0xA0 else 0x80) ≤ b1 ∧
            b1 ≤ (if b = 0xED then 0x9F else 0xBF) then
          match rest1 with
          | [] => [0xFFFD]
          | b2 :: rest2 =>
            if 0x80 ≤ b2 ∧ b2 ≤ 0xBF then
              ((b - 0xE0) * 4096 + (b1 - 0x80) * 64 + (b2 - 0x80)) ::
                decodeUtf8 rest2
            else 0xFFFD :: decodeUtf8 (b2 :: rest2)
        else 0xFFFD :: decodeUtf8 (b1 :: rest1)
    else if 0xF0 ≤ b ∧ b ≤ 0xF4 then
      match rest with
      | [] => [0xFFFD]
      | b1 :: rest1 =>
        if (if b = 0xF0 then 0x90 else 0x80) ≤ b1 ∧
            b1 ≤ (if b = 0xF4 then 0x8F else 0xBF) then
          match rest1 with
          | [] => [0xFFFD]
          | b2 :: rest2 =>
            if 0x80 ≤ b2 ∧ b2 ≤ 0xBF then
              match rest2 with
              | [] => [0xFFFD]
              | b3 :: rest3 =>
                if 0x80 ≤ b3 ∧ b3 ≤ 0xBF then
                  ((b - 0xF0) * 262144 + (b1 - 0x80) * 4096 +
                    (b2 - 0x80) * 64 + (b3 - 0x80)) :: decodeUtf8 rest3
                else 0xFFFD :: decodeUtf8 (b3 :: rest3)
            else 0xFFFD :: decodeUtf8 (b2 :: rest2)
        else 0xFFFD :: decodeUtf8 (b1 :: rest1)
    else 0xFFFD :: decodeUtf8 rest

/-- The decode step of the `DecoderTool` effect, given the parsed byte
list: `const text = new TextDecoder().decode(arr)` then
`setDecoded(text); setError("")`.  The default `TextDecoder` is
non-fatal per the WHATWG Encoding Standard, so it never throws on any
byte input and the catch branch (which would set the
`Invalid UTF-8 or hex format` message) is unreachable: the result is the
replacement-substituted text together with the error flag `false`. -/
def decoderToolStep (bytes : List Nat) : List Nat × Bool :=
  (decodeUtf8 bytes, false)

/-- Source helper `codePoints(str)`:
`Array.from(str, ch => ch.codePointAt(0))`.  A string is its UTF-16 code
unit sequence; the ECMAScript string iterator yields one element per code
point, pairing a high surrogate with a following low surrogate. -/
def codePoints : List Nat → List Nat
  | [] => []
  | u :: rest =>
    if 0xD800 ≤ u ∧ u ≤ 0xDBFF then
      match rest with
      | u2 :: rest2 =>
        if 0xDC00 ≤ u2 ∧ u2 ≤ 0xDFFF then
          (0x10000 + (u - 0xD800) * 0x400 + (u2 - 0xDC00)) ::
            codePoints rest2
        else u :: codePoints (u2 :: rest2)
      | [] => [u]
    else u :: codePoints rest

/-- The UTF-16 code unit sequence a JS string stores for a sequence of
Unicode scalar values: one unit below U+10000, a surrogate pair above. -/
def utf16Encode (text : List Nat) : List Nat :=
  (text.map (fun cp =>
    if cp ≤ 0xFFFF then [cp]
    else [0xD800 + (cp - 0x10000) / 0x400,
      0xDC00 + (cp - 0x10000) % 0x400])).flatten

end NumberTextLab

namespace NumberTextLab

/-- `Int.tmod` based double-wrap equals the mathematical residue for
negative dividends and a positive modulus. -/
theorem tmod_wrap_eq_emod (n m : Int) (hm : 0 < m) (hn : n < 0) :
    ((n.tmod m) + m).tmod m = n % m := by
  have hneg : (-n).tmod m = -(n.tmod m) := by
    rw [Int.tmod_def, Int.tmod_def, Int.neg_tdiv]; ring
  have h1 : 0 ≤ (-n).tmod m := Int.tmod_nonneg m (by omega)
  have h2 : (-n).tmod m < m := Int.tmod_lt_of_pos (-n) hm
  have h3 : 0 ≤ n.tmod m + m := by omega
  have h4 := Int.tmod_eq_emod h3 (le_of_lt hm)
  rw [h4, Int.tmod_def n m]
  have h5 : n - m * n.tdiv m + m = n + m * (1 - n.tdiv m) := by ring
  rw [h5, Int.add_mul_emod_self_left]

/-- Behaviour of `toUnsigned` on finite input, split by sign. -/
theorem toUnsigned_some (n : Int) (bits : Nat) :
    toUnsigned (some n) bits =
      if n < 0 then n % (2 ^ bits : Int) else min n (2 ^ bits - 1) := by
  have hp : (0 : Int) < 2 ^ bits := by positivity
  simp only [toUnsigned, clamp]
  split
  · have h1 : ((2 : Int) ^ bits - 1) + 1 = 2 ^ bits := by ring
    rw [h1, tmod_wrap_eq_emod n (2 ^ bits) hp (by assumption)]
  · have hn : (0 : Int) ≤ n := by omega
    rw [max_eq_right hn, min_comm]

/-- C3 counterexample: the claim says out-of-range non-negative input is
wrapped modularly, but `toUnsigned(256, 8)` clamps to 255 while modular
wraparound would give `256 % 2 ^ 8 = 0`. -/
theorem C3_counterexample :
    toUnsigned (some 256) 8 = 255 ∧ (256 : Int) % 2 ^ 8 = 0 ∧
      toUnsigned (some 256) 8 ≠ (256 : Int) % 2 ^ 8 := by
  refine ⟨?_, by decide, ?_⟩ <;> rw [toUnsigned_some] <;> decide

/-- C3 (amended): for bits in the set 8, 16, 32, `toUnsigned` always lands
in `[0, 2 ^ bits - 1]`; a negative input is wrapped modularly
(twos-complement style); a non-negative input above the range is clamped
to `2 ^ bits - 1` (not wrapped); an in-range input is returned unchanged;
non-finite input gives 0. -/
theorem C3_toUnsigned_amended (n : Option Int) (bits : Nat)
    (hb : bits = 8 ∨ bits = 16 ∨ bits = 32) :
    (0 ≤ toUnsigned n bits ∧ toUnsigned n bits ≤ 2 ^ bits - 1) ∧
    (∀ m : Int, n = some m → m < 0 → toUnsigned n bits = m % 2 ^ bits) ∧
    (∀ m : Int, n = some m → 2 ^ bits - 1 < m →
      toUnsigned n bits = 2 ^ bits - 1) ∧
    (∀ m : Int, n = some m → 0 ≤ m → m ≤ 2 ^ bits - 1 →
      toUnsigned n bits = m) ∧
    toUnsigned none bits = 0 := by
  have hp : (0 : Int) < 2 ^ bits := by positivity
  match n with
  | none =>
    refine ⟨⟨le_refl 0, by simp [toUnsigned]; omega⟩, ?_, ?_, ?_, rfl⟩ <;>
      intro m hm <;> exact absurd hm (by simp)
  | some m =>
    rw [toUnsigned_some]
    constructor
    · split
      · constructor
        · exact Int.emod_nonneg m (by omega)
        · have := Int.emod_lt_of_pos m hp
          omega
      · constructor
        · omega
        · exact min_le_right _ _
    refine ⟨?_, ?_, ?_, by simp [toUnsigned]⟩ <;> intro k hk <;>
      rw [Option.some.injEq] at hk <;> subst hk
    · intro hneg
      simp [hneg]
    · intro hbig
      have : ¬ m < 0 := by omega
      simp only [this, if_false]
      omega
    · intro hge hle
      have : ¬ m < 0 := by omega
      simp only [this, if_false]
      omega

/-- Witness for C3 (amended) at a concrete out-of-range input. -/
theorem C3_amended_witness :
    toUnsigned (some 300) 8 = 255 ∧
      (0 ≤ toUnsigned (some 300) 8 ∧ toUnsigned (some 300) 8 ≤ 2 ^ 8 - 1) :=
  ⟨by rw [toUnsigned_some]; decide,
    (C3_toUnsigned_amended (some 300) 8 (Or.inl rfl)).1⟩

/-- C6: for bits in the set 8, 16, 32 and unsigned `v` in range,
`unsignedToSigned` subtracts `2 ^ bits` exactly when
`v ≥ 2 ^ (bits - 1)`, the result lies in
`[-2 ^ (bits - 1), 2 ^ (bits - 1) - 1]`, and it is non-negative iff
`v < 2 ^ (bits - 1)`. -/
theorem C6_unsignedToSigned (v : Int) (bits : Nat)
    (hb : bits = 8 ∨ bits = 16 ∨ bits = 32)
    (h0 : 0 ≤ v) (h1 : v ≤ 2 ^ bits - 1) :
    (unsignedToSigned v bits =
      if 2 ^ (bits - 1) ≤ v then v - 2 ^ bits else v) ∧
    (-(2 ^ (bits - 1) : Int) ≤ unsignedToSigned v bits ∧
      unsignedToSigned v bits ≤ 2 ^ (bits - 1) - 1) ∧
    (0 ≤ unsignedToSigned v bits ↔ v < 2 ^ (bits - 1)) := by
  rcases hb with rfl | rfl | rfl <;>
    simp only [unsignedToSigned] <;> norm_num <;> split_ifs <;> omega

/-- Witness for C6 at `v = 200`, `bits = 8` (signed value is -56). -/
theorem C6_witness :
    unsignedToSigned 200 8 = -56 ∧
      (0 ≤ unsignedToSigned 200 8 ↔ (200 : Int) < 2 ^ (8 - 1)) :=
  ⟨by decide, (C6_unsignedToSigned 200 8 (Or.inl rfl) (by decide)
    (by decide)).2.2⟩

/-- ToUint32 is the identity on `[0, 2 ^ 32)`. -/
theorem toUint32_of_lt (v : Int) (h0 : 0 ≤ v) (h1 : v < 2 ^ 32) :
    (toUint32 v : Int) = v := by
  unfold toUint32
  omega

/-- ToUint32 always lands below `2 ^ 32`. -/
theorem toUint32_lt (v : Int) : toUint32 v < 2 ^ 32 := by
  unfold toUint32
  omega

/-- ToInt32 is the identity on `[0, 2 ^ 31)`. -/
theorem toInt32_of_lt (n : Int) (h0 : 0 ≤ n) (h1 : n < 2 ^ 31) :
    toInt32 n = n := by
  unfold toInt32
  split <;> omega

/-- ToInt32 does not change the 32-bit pattern. -/
theorem toUint32_toInt32 (n : Int) : toUint32 (toInt32 n) = toUint32 n := by
  unfold toInt32 toUint32
  split <;> omega

/-- Masking with `2 ^ k - 1` is reduction mod `2 ^ k` on naturals. -/
theorem land_two_pow_sub_one (n k : Nat) : n &&& (2 ^ k - 1) = n % 2 ^ k := by
  apply Nat.eq_of_testBit_eq
  intro i
  rw [Nat.testBit_and, Nat.testBit_two_pow_sub_one, Nat.testBit_mod_two_pow]
  cases Nat.testBit n i <;> simp

/-- The ECMAScript `x & 0xff` extracts the low byte of a Uint32 value. -/
theorem jsAnd_mask (a : Int) (h0 : 0 ≤ a) (h1 : a < 2 ^ 32) :
    jsAnd a 0xff = a % 256 := by
  unfold jsAnd
  have h2 : toUint32 a = a.toNat := by unfold toUint32; omega
  have h3 : toUint32 0xff = 255 := by decide
  rw [h2, h3]
  have h4 : a.toNat &&& 255 = a.toNat % 256 := by
    have := land_two_pow_sub_one a.toNat 8
    norm_num at this
    exact this
  rw [h4, toInt32_of_lt _ (by positivity) (by push_cast; omega)]
  omega

/-- One byte of the big-endian decomposition, evaluated arithmetically. -/
theorem byteVal (v : Int) (k : Nat) (h0 : 0 ≤ v) (h1 : v < 2 ^ 32)
    (hk : k < 32) :
    jsAnd (jsShrU (toUint32 v) k) 0xff = (v / 2 ^ k) % 256 := by
  have hv : toUint32 v = v.toNat := by unfold toUint32; omega
  unfold jsShrU
  rw [hv]
  have h2 : toUint32 (v.toNat : Int) = v.toNat := by unfold toUint32; omega
  rw [h2, Nat.mod_eq_of_lt hk]
  have hlt : ((v.toNat / 2 ^ k : Nat) : Int) < 2 ^ 32 := by
    have h5 : (v.toNat / 2 ^ k : Nat) < 2 ^ 32 :=
      lt_of_le_of_lt (Nat.div_le_self _ _) (by omega)
    exact_mod_cast h5
  rw [jsAnd_mask _ (by positivity) hlt]
  rw [Int.natCast_div]
  push_cast
  rw [Int.toNat_of_nonneg h0]

/-- C7: for bits in the set 8, 16, 32 and `v` in range, `bytesBE` equals
the list of exactly `ceil(bits / 8)` bytes whose entry for byte index `i`
(counting from the least-significant end, listed most-significant first)
is `(v >> (8 * i)) & 0xFF`, i.e. `(v / 2 ^ (8 * i)) % 256`; and `bytesLE`
is exactly the reverse of `bytesBE`. -/
theorem C7_bytes (v : Int) (bits : Nat)
    (hb : bits = 8 ∨ bits = 16 ∨ bits = 32)
    (h0 : 0 ≤ v) (h1 : v ≤ 2 ^ bits - 1) :
    ((bytesBE v bits).length = (bits + 7) / 8 ∧
      bytesBE v bits =
        (List.range ((bits + 7) / 8)).reverse.map
          (fun i => (v / 2 ^ (8 * i)) % 256)) ∧
    bytesLE v bits = (bytesBE v bits).reverse := by
  rcases hb with rfl | rfl | rfl
  · have hv32 : v < 2 ^ 32 := by norm_num at h1 ⊢; omega
    refine ⟨⟨rfl, ?_⟩, rfl⟩
    calc bytesBE v 8 = [jsAnd (jsShrU (toUint32 v) 0) 0xff] := rfl
      _ = [(v / 2 ^ 0) % 256] := by
            rw [byteVal v 0 h0 hv32 (by norm_num)]
      _ = (List.range ((8 + 7) / 8)).reverse.map
            (fun i => (v / 2 ^ (8 * i)) % 256) := by norm_num [List.range_succ]
  · have hv32 : v < 2 ^ 32 := by norm_num at h1 ⊢; omega
    refine ⟨⟨rfl, ?_⟩, rfl⟩
    calc bytesBE v 16 =
          [jsAnd (jsShrU (toUint32 v) 8) 0xff,
            jsAnd (jsShrU (toUint32 v) 0) 0xff] := rfl
      _ = [(v / 2 ^ 8) % 256, (v / 2 ^ 0) % 256] := by
            rw [byteVal v 0 h0 hv32 (by norm_num),
              byteVal v 8 h0 hv32 (by norm_num)]
      _ = (List.range ((16 + 7) / 8)).reverse.map
            (fun i => (v / 2 ^ (8 * i)) % 256) := by norm_num [List.range_succ]
  · have hv32 : v < 2 ^ 32 := by norm_num at h1 ⊢; omega
    refine ⟨⟨rfl, ?_⟩, rfl⟩
    calc bytesBE v 32 =
          [jsAnd (jsShrU (toUint32 v) 24) 0xff,
            jsAnd (jsShrU (toUint32 v) 16) 0xff,
            jsAnd (jsShrU (toUint32 v) 8) 0xff,
            jsAnd (jsShrU (toUint32 v) 0) 0xff] := rfl
      _ = [(v / 2 ^ 24) % 256, (v / 2 ^ 16) % 256,
            (v / 2 ^ 8) % 256, (v / 2 ^ 0) % 256] := by
            rw [byteVal v 0 h0 hv32 (by norm_num),
              byteVal v 8 h0 hv32 (by norm_num),
              byteVal v 16 h0 hv32 (by norm_num),
              byteVal v 24 h0 hv32 (by norm_num)]
      _ = (List.range ((32 + 7) / 8)).reverse.map
            (fun i => (v / 2 ^ (8 * i)) % 256) := by norm_num [List.range_succ]

/-- Witness for C7 at `v = 65000`, `bits = 16`
(big-endian bytes `[253, 232]`). -/
theorem C7_witness :
    bytesBE 65000 16 = [253, 232] ∧
      bytesLE 65000 16 = (bytesBE 65000 16).reverse :=
  ⟨by decide, (C7_bytes 65000 16 (Or.inr (Or.inl rfl)) (by decide)
    (by decide)).2⟩

/-- ToUint32 of the cast of a natural below `2 ^ 32` is that natural. -/
theorem toUint32_natCast (x : Nat) (h : x < 2 ^ 32) :
    toUint32 ((x : Nat) : Int) = x := by
  unfold toUint32
  omega

/-- The click of bit button `i` computes the xor of the value with the
single-bit mask `2 ^ (bits - 1 - i)`, including the `bits = 32`, `i = 0`
case where the ECMAScript `1 << 31` is the negative int32 `-2 ^ 31`. -/
theorem toggleBit_eq_xor (v : Int) (bits i : Nat)
    (hb : bits = 8 ∨ bits = 16 ∨ bits = 32)
    (h0 : 0 ≤ v) (h1 : v < 2 ^ bits) (hi : i < bits) :
    toggleBit v bits i = ((v.toNat ^^^ 2 ^ (bits - 1 - i) : Nat) : Int) := by
  have hb8 : 8 ≤ bits := by rcases hb with rfl | rfl | rfl <;> norm_num
  have hbits32 : bits ≤ 32 := by rcases hb with rfl | rfl | rfl <;> norm_num
  unfold toggleBit
  generalize hkdef : bits - 1 - i = k
  have hk : k < bits := by omega
  have hk32 : k < 32 := lt_of_lt_of_le hk hbits32
  have hv32 : v < (2 : Int) ^ 32 := by
    rcases hb with rfl | rfl | rfl <;> norm_num at h1 ⊢ <;> omega
  have hvN : v.toNat < 2 ^ bits := by
    have h2 : (v.toNat : Int) < (2 : Int) ^ bits := by
      rwa [Int.toNat_of_nonneg h0]
    exact_mod_cast h2
  have hmask : 2 ^ k < 2 ^ bits := Nat.pow_lt_pow_right (by norm_num) hk
  have hmask32 : 2 ^ k < 2 ^ 32 := Nat.pow_lt_pow_right (by norm_num) hk32
  have hx : (v.toNat ^^^ 2 ^ k) < 2 ^ bits := Nat.xor_lt_two_pow hvN hmask
  have hu1 : toUint32 1 = 1 := by decide
  have humask : toUint32 (jsShl 1 k) = 2 ^ k := by
    unfold jsShl
    rw [toUint32_toInt32, hu1, Nat.mod_eq_of_lt hk32]
    have hcast : ((1 : Nat) : Int) * 2 ^ k = (((2 ^ k : Nat) : Nat) : Int) := by
      push_cast
      ring
    rw [hcast]
    exact toUint32_natCast _ hmask32
  have hupat : toUint32 v = v.toNat := by unfold toUint32; omega
  have hxor : jsXor v (jsShl 1 k) =
      toInt32 ((v.toNat ^^^ 2 ^ k : Nat) : Int) := by
    unfold jsXor
    rw [humask, hupat]
  rw [hxor]
  have hxI : ((v.toNat ^^^ 2 ^ k : Nat) : Int) < (2 : Int) ^ bits := by
    exact_mod_cast hx
  have hx32 : (v.toNat ^^^ 2 ^ k) < 2 ^ 32 :=
    Nat.xor_lt_two_pow
      (hvN.trans_le (Nat.pow_le_pow_right (by norm_num) hbits32)) hmask32
  by_cases hc : ((v.toNat ^^^ 2 ^ k : Nat) : Int) < 2147483648
  · rw [toInt32_of_lt _ (Int.natCast_nonneg _) (by norm_num; omega),
      toUnsigned_some, if_neg (not_lt.mpr (Int.natCast_nonneg _))]
    exact min_eq_left (Int.le_sub_one_iff.mpr hxI)
  · have hxe : ((v.toNat ^^^ 2 ^ k : Nat) : Int) % 4294967296 =
        ((v.toNat ^^^ 2 ^ k : Nat) : Int) := by
      apply Int.emod_eq_of_lt (Int.natCast_nonneg _)
      have hcast : ((v.toNat ^^^ 2 ^ k : Nat) : Int) < ((2 ^ 32 : Nat) : Nat) :=
        by exact_mod_cast hx32
      norm_num at hcast
      exact_mod_cast hcast
    have ht : toInt32 ((v.toNat ^^^ 2 ^ k : Nat) : Int) =
        ((v.toNat ^^^ 2 ^ k : Nat) : Int) - 4294967296 := by
      unfold toInt32
      rw [hxe, if_neg hc]
    rw [ht, toUnsigned_some]
    rcases hb with rfl | rfl | rfl
    · exfalso
      norm_num at hxI hc
      omega
    · exfalso
      norm_num at hxI hc
      omega
    · norm_num at hxI hc
      rw [if_pos (show ((v.toNat ^^^ 2 ^ k : Nat) : Int) - 4294967296 < 0 by
        omega)]
      omega

/-- C10: for bits in the set 8, 16, 32, `v` in range and UI bit index
`i < bits`, one click of `toggleBit(i)` flips exactly bit
`bits - 1 - i` of `v`, stays in `[0, 2 ^ bits - 1]`, and a second click
restores `v` (involution), including the 32-bit sign-bit case where the
intermediate ECMAScript xor is negative. -/
theorem C10_toggleBit (v : Int) (bits i : Nat)
    (hb : bits = 8 ∨ bits = 16 ∨ bits = 32)
    (h0 : 0 ≤ v) (h1 : v < 2 ^ bits) (hi : i < bits) :
    (0 ≤ toggleBit v bits i ∧ toggleBit v bits i < 2 ^ bits) ∧
    ((toggleBit v bits i).toNat.testBit (bits - 1 - i) =
      ! v.toNat.testBit (bits - 1 - i)) ∧
    (∀ j : Nat, j ≠ bits - 1 - i →
      (toggleBit v bits i).toNat.testBit j = v.toNat.testBit j) ∧
    toggleBit (toggleBit v bits i) bits i = v := by
  have hkey := toggleBit_eq_xor v bits i hb h0 h1 hi
  have hvN : v.toNat < 2 ^ bits := by
    have h2 : (v.toNat : Int) < (2 : Int) ^ bits := by
      rwa [Int.toNat_of_nonneg h0]
    exact_mod_cast h2
  have hb8 : 8 ≤ bits := by rcases hb with rfl | rfl | rfl <;> norm_num
  have hk : bits - 1 - i < bits := by omega
  have hmask : 2 ^ (bits - 1 - i) < 2 ^ bits :=
    Nat.pow_lt_pow_right (by norm_num) hk
  have hx : (v.toNat ^^^ 2 ^ (bits - 1 - i)) < 2 ^ bits :=
    Nat.xor_lt_two_pow hvN hmask
  have hxI : ((v.toNat ^^^ 2 ^ (bits - 1 - i) : Nat) : Int) <
      (2 : Int) ^ bits := by exact_mod_cast hx
  have htN : (toggleBit v bits i).toNat =
      v.toNat ^^^ 2 ^ (bits - 1 - i) := by
    rw [hkey, Int.toNat_natCast]
  refine ⟨⟨by rw [hkey]; exact Int.natCast_nonneg _, by rw [hkey]; exact hxI⟩,
    ?_, ?_, ?_⟩
  · rw [htN, Nat.testBit_xor, Nat.testBit_two_pow]
    simp
  · intro j hj
    rw [htN, Nat.testBit_xor, Nat.testBit_two_pow]
    simp [Ne.symm hj]
  · have hkey2 := toggleBit_eq_xor (toggleBit v bits i) bits i hb
      (by rw [hkey]; exact Int.natCast_nonneg _) (by rw [hkey]; exact hxI) hi
    rw [hkey2, htN, Nat.xor_cancel_right, Int.toNat_of_nonneg h0]

/-- Witness for C10 at `v = 5`, `bits = 8`, `i = 0` (flips the MSB). -/
theorem C10_witness :
    toggleBit 5 8 0 = 133 ∧ toggleBit (toggleBit 5 8 0) 8 0 = 5 :=
  ⟨by decide, (C10_toggleBit 5 8 0 (Or.inl rfl) (by decide) (by decide)
    (by decide)).2.2.2⟩

/-- C2 fails on the code: changing the bit width does not re-wrap the
current value.  From the initial state, set 16-bit, type 65000, then
press the 8-bit button: the state bits = 8, unsignedValue = 65000 is
reachable and violates the range invariant `[0, 2 ^ 8 - 1]`. -/
theorem C2_width_change_keeps_value :
    ∃ s : LabState, Reachable s ∧ s.bits = 8 ∧ s.unsignedValue = 65000 ∧
      ¬ (0 ≤ s.unsignedValue ∧ s.unsignedValue ≤ 2 ^ s.bits - 1) := by
  refine ⟨step (step (step initState (Event.setBitsBtn 16))
      (Event.decimalInput (some 65000))) (Event.setBitsBtn 8),
    Reachable.step (Reachable.step (Reachable.step Reachable.init
      (by decide)) (by decide)) (by decide),
    by decide, by decide, by decide⟩

/-- C9: every step that changes the bit width leaves the stored challenge
cleared (`null`), and the challenge is judged correct exactly when the
current value equals the stored target and the stored width equals the
active width. -/
theorem C9_challenge_invalidation (s : LabState) (e : Event) :
    ((step s e).bits ≠ s.bits → (step s e).challenge = none) ∧
    (challengeCorrect s = true ↔
      ∃ c : Challenge, s.challenge = some c ∧
        s.unsignedValue = c.target ∧ s.bits = c.bits) := by
  constructor
  · intro hne
    cases e with
    | setBitsBtn b =>
      show (if b = s.bits then s.challenge else none) = none
      exact if_neg hne
    | decimalInput n =>
      exfalso
      apply hne
      cases n with
      | none => rfl
      | some m =>
        rw [show step s (Event.decimalInput (some m)) =
          ⟨s.bits, toUnsigned (some m) s.bits, s.challenge⟩ from rfl]
    | hexInput str =>
      exfalso
      apply hne
      show (step s (Event.hexInput str)).bits = s.bits
      simp only [step]
      cases hp : parseFromBase str 16 <;> rfl
    | binaryInput str =>
      exfalso
      apply hne
      show (step s (Event.binaryInput str)).bits = s.bits
      simp only [step]
      cases hp : parseFromBase (stripWs str) 2 <;> rfl
    | sliderInput n =>
      exact absurd rfl hne
    | toggleBitBtn i =>
      exfalso
      apply hne
      rw [show step s (Event.toggleBitBtn i) =
        ⟨s.bits, toggleBit s.unsignedValue s.bits i, s.challenge⟩ from rfl]
    | newTargetBtn t =>
      exact absurd rfl hne
  · unfold challengeCorrect
    cases hch : s.challenge with
    | none => simp
    | some c =>
      simp only [Bool.and_eq_true, beq_iff_eq]
      constructor
      · intro hcu
        exact ⟨c, rfl, hcu.1, hcu.2⟩
      · intro hcu
        obtain ⟨d, hd, h1, h2⟩ := hcu
        rw [Option.some.injEq] at hd
        subst hd
        exact ⟨h1, h2⟩

/-- Witness for C9: pressing the 8-bit button in a 16-bit state clears
the stored challenge, and a matching state is judged correct. -/
theorem C9_witness :
    (step ⟨16, 65000, some ⟨3, 16⟩⟩ (Event.setBitsBtn 8)).challenge = none ∧
      challengeCorrect ⟨16, 3, some ⟨3, 16⟩⟩ = true :=
  ⟨(C9_challenge_invalidation ⟨16, 65000, some ⟨3, 16⟩⟩
      (Event.setBitsBtn 8)).1 (by decide),
    (C9_challenge_invalidation ⟨16, 3, some ⟨3, 16⟩⟩
      (Event.setBitsBtn 8)).2.mpr ⟨⟨3, 16⟩, rfl, rfl, rfl⟩⟩

/-- `utf16Encode` distributes over cons. -/
theorem utf16Encode_cons (cp : Nat) (t : List Nat) :
    utf16Encode (cp :: t) =
      (if cp ≤ 0xFFFF then [cp]
        else [0xD800 + (cp - 0x10000) / 0x400,
          0xDC00 + (cp - 0x10000) % 0x400]) ++ utf16Encode t := rfl

/-- The string iterator consumes the UTF-16 unit(s) of one valid scalar
as a single entry. -/
theorem codePoints_cons_scalar (cp : Nat) (rest : List Nat)
    (h1 : cp ≤ 0x10FFFF) (h2 : ¬ (0xD800 ≤ cp ∧ cp ≤ 0xDFFF)) :
    codePoints ((if cp ≤ 0xFFFF then [cp]
      else [0xD800 + (cp - 0x10000) / 0x400,
        0xDC00 + (cp - 0x10000) % 0x400]) ++ rest) =
      cp :: codePoints rest := by
  split
  · show codePoints (cp :: rest) = cp :: codePoints rest
    rw [codePoints.eq_def]
    dsimp only
    rw [if_neg (by omega)]
  · show codePoints ((0xD800 + (cp - 0x10000) / 0x400) ::
      (0xDC00 + (cp - 0x10000) % 0x400) :: rest) = cp :: codePoints rest
    have hm : (cp - 0x10000) % 0x400 ≤ 0x3FF := by omega
    rw [codePoints.eq_def]
    dsimp only
    rw [if_pos (by omega), if_pos (by omega)]
    rw [List.cons.injEq]
    constructor
    · omega
    · rfl

/-- C8: `codePoints` yields exactly one entry per Unicode scalar value in
text order, iterating by scalar value and not by UTF-16 code unit, so a
code point above 0xFFFF (stored as a surrogate pair) appears as one
entry; and the example text `Hi` (units 72, 105) gives `[72, 105]`. -/
theorem C8_codePoints (text : List Nat)
    (h : ∀ cp ∈ text, cp ≤ 0x10FFFF ∧ ¬ (0xD800 ≤ cp ∧ cp ≤ 0xDFFF)) :
    codePoints (utf16Encode text) = text ∧
      codePoints [72, 105] = [72, 105] := by
  constructor
  · induction text with
    | nil => rfl
    | cons cp t ih =>
      have hcp := h cp (List.mem_cons_self cp t)
      rw [utf16Encode_cons, codePoints_cons_scalar cp _ hcp.1 hcp.2,
        ih (fun c hc => h c (List.mem_cons_of_mem cp hc))]
  · decide

/-- Witness for C8: text with an emoji above 0xFFFF (one entry kept). -/
theorem C8_witness :
    codePoints (utf16Encode [72, 105, 0x1F44B]) = [72, 105, 0x1F44B] :=
  (C8_codePoints [72, 105, 0x1F44B] (by decide)).1

/-- C1 fails on the code: for the malformed bytes `[0xFF, 0xFE]` the
decoder step produces the replacement-substituted text U+FFFD U+FFFD and
leaves the error flag unset, because the default `TextDecoder` is
non-fatal and never throws; it neither signals a decode error nor clears
the output, contrary to the claim and to the unreachable catch branch of
the source. -/
theorem C1_decoder_no_error_on_malformed :
    decoderToolStep [0xFF, 0xFE] = ([0xFFFD, 0xFFFD], false) ∧
      (decoderToolStep [0xFF, 0xFE]).2 = false ∧
      (decoderToolStep [0xFF, 0xFE]).1 ≠ [] ∧
      0xFFFD ∈ (decoderToolStep [0xFF, 0xFE]).1 := by
  refine ⟨?_, rfl, ?_, ?_⟩ <;> decide

/-- `utf8Bytes` distributes over cons. -/
theorem utf8Bytes_cons (cp : Nat) (t : List Nat) :
    utf8Bytes (cp :: t) =
      utf8EncodeChar (if 0xD800 ≤ cp ∧ cp ≤ 0xDFFF then 0xFFFD else cp) ++
        utf8Bytes t := rfl

/-- Decoding the UTF-8 encoding of one valid scalar in front of any
byte tail yields that scalar followed by the decode of the tail. -/
theorem decodeUtf8_encodeChar (cp : Nat) (rest : List Nat)
    (h1 : cp ≤ 0x10FFFF) (h2 : ¬ (0xD800 ≤ cp ∧ cp ≤ 0xDFFF)) :
    decodeUtf8 (utf8EncodeChar cp ++ rest) = cp :: decodeUtf8 rest := by
  by_cases ha : cp ≤ 0x7F
  · have he : utf8EncodeChar cp = [cp] := by
      unfold utf8EncodeChar
      rw [if_pos ha]
    rw [he, List.cons_append, List.nil_append, decodeUtf8.eq_def]
    dsimp only
    rw [if_pos ha]
  · by_cases hb : cp ≤ 0x7FF
    · have he : utf8EncodeChar cp = [0xC0 + cp / 64, 0x80 + cp % 64] := by
        unfold utf8EncodeChar
        rw [if_neg ha, if_pos hb]
      rw [he]
      simp only [List.cons_append, List.nil_append]
      rw [decodeUtf8.eq_def]
      dsimp only
      rw [if_neg (by omega), if_pos (by omega), if_pos (by omega)]
      rw [List.cons.injEq]
      exact ⟨by omega, rfl⟩
    · by_cases hc : cp ≤ 0xFFFF
      · have he : utf8EncodeChar cp =
            [0xE0 + cp / 4096, 0x80 + cp / 64 % 64, 0x80 + cp % 64] := by
          unfold utf8EncodeChar
          rw [if_neg ha, if_neg hb, if_pos hc]
        rw [he]
        simp only [List.cons_append, List.nil_append]
        rw [decodeUtf8.eq_def]
        dsimp only
        rw [if_neg (by omega), if_neg (by omega), if_pos (by omega)]
        rw [if_pos (by refine ⟨?_, ?_⟩ <;> split_ifs with hh <;> omega)]
        rw [if_pos (by omega)]
        rw [List.cons.injEq]
        exact ⟨by omega, rfl⟩
      · have he : utf8EncodeChar cp =
            [0xF0 + cp / 262144, 0x80 + cp / 4096 % 64,
              0x80 + cp / 64 % 64, 0x80 + cp % 64] := by
          unfold utf8EncodeChar
          rw [if_neg ha, if_neg hb, if_neg hc]
        rw [he]
        simp only [List.cons_append, List.nil_append]
        rw [decodeUtf8.eq_def]
        dsimp only
        rw [if_neg (by omega), if_neg (by omega), if_neg (by omega),
          if_pos (by omega)]
        rw [if_pos (by refine ⟨?_, ?_⟩ <;> split_ifs with hh <;> omega)]
        rw [if_pos (by omega), if_pos (by omega)]
        rw [List.cons.injEq]
        exact ⟨by omega, rfl⟩

/-- C5: decoding the UTF-8 encoding of any valid Unicode text (no lone
surrogates) yields the text again. -/
theorem C5_utf8_roundtrip (s : List Nat)
    (h : ∀ cp ∈ s, cp ≤ 0x10FFFF ∧ ¬ (0xD800 ≤ cp ∧ cp ≤ 0xDFFF)) :
    decodeUtf8 (utf8Bytes s) = s := by
  induction s with
  | nil => rfl
  | cons cp t ih =>
    have hcp := h cp (List.mem_cons_self cp t)
    rw [utf8Bytes_cons, if_neg hcp.2,
      decodeUtf8_encodeChar cp _ hcp.1 hcp.2,
      ih (fun c hc => h c (List.mem_cons_of_mem cp hc))]

/-- Witness for C5 on the text `Hi` followed by a waving-hand emoji. -/
theorem C5_witness :
    decodeUtf8 (utf8Bytes [72, 105, 0x1F44B]) = [72, 105, 0x1F44B] :=
  C5_utf8_roundtrip [72, 105, 0x1F44B] (by decide)

/-- A digit rendered lowercase reads back as its value. -/
theorem rawDigitVal_lower : ∀ d, d < 36 →
    rawDigitVal (digitCharLower d) = some d := by decide

/-- A digit rendered lowercase then uppercased reads back as its value. -/
theorem rawDigitVal_upper : ∀ d, d < 36 →
    rawDigitVal (toUpperChar (digitCharLower d)) = some d := by decide

/-- A decimal digit character is an ASCII digit. -/
theorem isDigit_digitCharLower : ∀ d, d < 10 →
    (digitCharLower d).isDigit = true := by decide

/-- Radix acceptance of a character from its raw value. -/
theorem charDigitVal_of_raw (c : Char) (b d : Nat) (h : rawDigitVal c = some d)
    (hd : d < b) : charDigitVal c b = some d := by
  unfold charDigitVal
  rw [h]
  dsimp only
  rw [if_pos hd]

/-- Whitespace has no digit value. -/
theorem rawDigitVal_ws_none (c : Char) (h : isWs c = true) :
    rawDigitVal c = none := by
  simp only [isWs, Bool.or_eq_true, beq_iff_eq] at h
  rcases h with ((rfl | rfl) | rfl) | rfl <;> decide

/-- A character with a digit value is not whitespace. -/
theorem isWs_false_of_rawDigit (c : Char) (d : Nat)
    (h : rawDigitVal c = some d) : isWs c = false := by
  by_contra hws
  rw [Bool.not_eq_false] at hws
  rw [rawDigitVal_ws_none c hws] at h
  exact Option.noConfusion h

/-- `dropWhile` is the identity when even the head fails the test. -/
theorem dropWhile_eq_self_of_head (p : Char → Bool) (c : Char)
    (cs : List Char) (h : p c = false) :
    (c :: cs).dropWhile p = c :: cs := by
  simp [List.dropWhile_cons, h]

/-- `dropWhile` is the identity when no element passes the test. -/
theorem dropWhile_eq_self_of_all (p : Char → Bool) (s : List Char)
    (h : ∀ c ∈ s, p c = false) : s.dropWhile p = s := by
  cases s with
  | nil => rfl
  | cons c t => exact dropWhile_eq_self_of_head p c t (h c (List.mem_cons_self c t))

/-- `trim` is the identity on whitespace-free strings. -/
theorem trimChars_eq_self (s : List Char) (h : ∀ c ∈ s, isWs c = false) :
    trimChars s = s := by
  unfold trimChars
  rw [dropWhile_eq_self_of_all isWs s h,
    dropWhile_eq_self_of_all isWs s.reverse
      (fun c hc => h c (List.mem_reverse.mp hc)),
    List.reverse_reverse]

/-- The digit loop consumes a fully valid prefix and continues. -/
theorem parseDigitsAux_append (b : Nat) (l1 l2 : List Char)
    (h : ∀ c ∈ l1, (charDigitVal c b).isSome = true) :
    ∀ acc, parseDigitsAux b acc (l1 ++ l2) =
      parseDigitsAux b (parseDigitsAux b acc l1) l2 := by
  induction l1 with
  | nil => intro acc; rfl
  | cons c t ih =>
    intro acc
    obtain ⟨d, hd⟩ :=
      Option.isSome_iff_exists.mp (h c (List.mem_cons_self c t))
    rw [List.cons_append]
    simp only [parseDigitsAux]
    rw [hd]
    exact ih (fun x hx => h x (List.mem_cons_of_mem c hx)) (acc * b + d)

/-- The zero character is a valid digit for any radix above 1. -/
theorem charDigitVal_zero (b : Nat) (hb : 1 < b) :
    charDigitVal '0' b = some 0 :=
  charDigitVal_of_raw _ _ _ (by decide) (by omega)

/-- Leading zero padding does not change the parsed value. -/
theorem parseDigitsAux_zeros (b : Nat) (hb : 1 < b) (k : Nat)
    (rest : List Char) :
    parseDigitsAux b 0 (List.replicate k '0' ++ rest) =
      parseDigitsAux b 0 rest := by
  induction k with
  | zero => rfl
  | succ k ih =>
    rw [List.replicate_succ, List.cons_append]
    simp only [parseDigitsAux]
    rw [charDigitVal_zero b hb]
    dsimp only
    simpa using ih

/-- Horner evaluation: the digit loop over a rendered digit string is the
base-b value of the digits. -/
theorem parseDigitsAux_digits (b : Nat) (hb : 1 < b) (hb36 : b ≤ 36)
    (g : Nat → Char) (hg : ∀ d, d < 36 → rawDigitVal (g d) = some d)
    (ds : List Nat) (hd : ∀ d ∈ ds, d < b) :
    ∀ acc, parseDigitsAux b acc (ds.reverse.map g) =
      acc * b ^ ds.length + Nat.ofDigits b ds := by
  induction ds with
  | nil =>
    intro acc
    simp [parseDigitsAux, Nat.ofDigits_nil]
  | cons d t ih =>
    intro acc
    have hdb : d < b := hd d (List.mem_cons_self d t)
    have hcv : charDigitVal (g d) b = some d :=
      charDigitVal_of_raw _ _ _ (hg d (by omega)) hdb
    rw [List.reverse_cons, List.map_append]
    rw [parseDigitsAux_append b _ _ ?hval acc]
    case hval =>
      intro c hc
      rw [List.mem_map] at hc
      obtain ⟨d2, hd2, rfl⟩ := hc
      have hlt : d2 < b :=
        hd d2 (List.mem_cons_of_mem d (List.mem_reverse.mp hd2))
      rw [charDigitVal_of_raw _ _ _ (hg d2 (by omega)) hlt]
      rfl
    rw [ih (fun x hx => hd x (List.mem_cons_of_mem d hx)) acc]
    simp only [List.map_cons, List.map_nil, parseDigitsAux]
    rw [hcv]
    dsimp only
    rw [Nat.ofDigits_cons]
    simp only [List.length_cons]
    ring

/-- `parseInt` on a non-empty string of valid radix-`b` digits parses the
whole string with the digit loop: no whitespace is skipped, no sign or
hex marker is consumed, and the result is finite. -/
theorem parseIntJs_all_digits (b : Nat) (hb : 1 < b) (c : Char)
    (cs : List Char)
    (hall : ∀ x ∈ c :: cs, ∃ d, rawDigitVal x = some d ∧ d < b) :
    parseIntJs (c :: cs) b =
      some ((parseDigitsAux b 0 (c :: cs) : Nat) : Int) := by
  obtain ⟨d, hd, hdb⟩ := hall c (List.mem_cons_self c cs)
  have hws : isWs c = false := isWs_false_of_rawDigit c d hd
  have hminus : ¬ c = '-' := by
    rintro rfl
    rw [show rawDigitVal '-' = none from by decide] at hd
    exact Option.noConfusion hd
  have hplus : ¬ c = '+' := by
    rintro rfl
    rw [show rawDigitVal '+' = none from by decide] at hd
    exact Option.noConfusion hd
  have hcv : charDigitVal c b = some d := charDigitVal_of_raw _ _ _ hd hdb
  unfold parseIntJs
  rw [dropWhile_eq_self_of_head isWs c cs hws]
  dsimp only
  rw [if_neg hminus, if_neg hplus]
  dsimp only
  by_cases hb16 : b = 16
  · subst hb16
    rw [if_pos rfl]
    cases cs with
    | nil =>
      dsimp only
      rw [hcv]
      rfl
    | cons c1 cs1 =>
      have hnox : ¬ (c = '0' ∧ (c1 = 'x' ∨ c1 = 'X')) := by
        rintro ⟨h0, hx⟩
        obtain ⟨d1, hd1, hdb1⟩ :=
          hall _ (List.mem_cons_of_mem c (List.mem_cons_self _ cs1))
        rcases hx with rfl | rfl
        · rw [show rawDigitVal 'x' = some 33 from by decide] at hd1
          rw [Option.some.injEq] at hd1
          omega
        · rw [show rawDigitVal 'X' = some 33 from by decide] at hd1
          rw [Option.some.injEq] at hd1
          omega
      dsimp only
      rw [if_neg hnox]
      dsimp only
      rw [hcv]
      rfl
  · rw [if_neg hb16]
    dsimp only
    rw [hcv]
    rfl

/-- A rendered number string is never empty. -/
theorem jsToString_ne_nil (n b : Nat) : jsToString n b ≠ [] := by
  unfold jsToString
  split
  · exact List.cons_ne_nil '0' []
  · rw [Ne, List.map_eq_nil, List.reverse_eq_nil_iff]
    exact Nat.digits_ne_nil_iff_ne_zero.mpr (by assumption)

/-- Every character of a rendered number string is a radix-`b` digit. -/
theorem jsToString_chars_valid (b : Nat) (hb : 1 < b) (hb36 : b ≤ 36)
    (n : Nat) : ∀ c ∈ jsToString n b,
      ∃ d, rawDigitVal c = some d ∧ d < b := by
  unfold jsToString
  split
  · intro c hc
    rw [List.mem_singleton] at hc
    subst hc
    exact ⟨0, by decide, by omega⟩
  · intro c hc
    rw [List.mem_map] at hc
    obtain ⟨d, hd, rfl⟩ := hc
    have hlt : d < b := Nat.digits_lt_base hb (List.mem_reverse.mp hd)
    exact ⟨d, rawDigitVal_lower d (by omega), hlt⟩

/-- Every character of an uppercased rendered number string is a
radix-`b` digit. -/
theorem jsToString_upper_chars_valid (b : Nat) (hb : 1 < b) (hb36 : b ≤ 36)
    (n : Nat) : ∀ c ∈ (jsToString n b).map toUpperChar,
      ∃ d, rawDigitVal c = some d ∧ d < b := by
  unfold jsToString
  split
  · intro c hc
    rw [show List.map toUpperChar ['0'] = ['0'] from by decide] at hc
    rw [List.mem_singleton] at hc
    subst hc
    exact ⟨0, by decide, by omega⟩
  · intro c hc
    rw [List.map_map, List.mem_map] at hc
    obtain ⟨d, hd, rfl⟩ := hc
    have hlt : d < b := Nat.digits_lt_base hb (List.mem_reverse.mp hd)
    exact ⟨d, rawDigitVal_upper d (by omega), hlt⟩

/-- The digit loop recovers the value of a rendered number string. -/
theorem parseDigitsAux_jsToString (b : Nat) (hb : 1 < b) (hb36 : b ≤ 36)
    (n : Nat) : parseDigitsAux b 0 (jsToString n b) = n := by
  unfold jsToString
  split
  · simp only [parseDigitsAux]
    rw [charDigitVal_zero b hb]
    dsimp only
    omega
  · rw [parseDigitsAux_digits b hb hb36 digitCharLower rawDigitVal_lower
      (Nat.digits b n) (fun d hd => Nat.digits_lt_base hb hd) 0]
    simp [Nat.ofDigits_digits]

/-- The digit loop recovers the value of an uppercased rendered string. -/
theorem parseDigitsAux_jsToString_upper (b : Nat) (hb : 1 < b)
    (hb36 : b ≤ 36) (n : Nat) :
    parseDigitsAux b 0 ((jsToString n b).map toUpperChar) = n := by
  unfold jsToString
  split
  · rw [show List.map toUpperChar ['0'] = ['0'] from by decide]
    simp only [parseDigitsAux]
    rw [charDigitVal_zero b hb]
    dsimp only
    omega
  · rw [List.map_map]
    rw [parseDigitsAux_digits b hb hb36 (toUpperChar ∘ digitCharLower)
      rawDigitVal_upper
      (Nat.digits b n) (fun d hd => Nat.digits_lt_base hb hd) 0]
    simp [Nat.ofDigits_digits]

/-- Every character of `padLeft s len` comes from `s` or is `'0'`. -/
theorem padLeft_chars (s : List Char) (len : Nat) (c : Char)
    (hc : c ∈ padLeft s len) : c = '0' ∨ c ∈ s := by
  unfold padLeft at hc
  rw [List.mem_append] at hc
  rcases hc with hc | hc
  · exact Or.inl (List.eq_of_mem_replicate hc)
  · exact Or.inr hc

/-- `padLeft` of a non-empty string is non-empty. -/
theorem padLeft_ne_nil (s : List Char) (len : Nat) (hs : s ≠ []) :
    padLeft s len ≠ [] := by
  unfold padLeft
  rw [Ne, List.append_eq_nil]
  rintro ⟨-, h2⟩
  exact hs h2

/-- Filtering out whitespace ignores a dropped whitespace prefix. -/
theorem stripWs_dropWhile (s : List Char) :
    stripWs (s.dropWhile isWs) = stripWs s := by
  induction s with
  | nil => rfl
  | cons c t ih =>
    rw [List.dropWhile_cons]
    by_cases h : isWs c = true
    · rw [if_pos h, ih]
      unfold stripWs
      rw [List.filter_cons]
      simp [h]
    · rw [if_neg h]

/-- Filtering out whitespace is unaffected by `trim`. -/
theorem stripWs_trimChars (s : List Char) :
    stripWs (trimChars s) = stripWs s := by
  unfold trimChars stripWs
  rw [List.filter_reverse]
  have h1 := stripWs_dropWhile ((s.dropWhile isWs).reverse)
  unfold stripWs at h1
  rw [h1, List.filter_reverse]
  have h2 := stripWs_dropWhile s
  unfold stripWs at h2
  rw [h2, List.reverse_reverse]

/-- Filtering out whitespace undoes the 4-digit grouping replacement. -/
theorem stripWs_groupChunks (n : Nat) (s : List Char) :
    stripWs (groupChunks s n) = stripWs s := by
  generalize hL : s.length = L
  induction L using Nat.strong_induction_on generalizing s with
  | _ L ih =>
    rw [groupChunks.eq_def]
    split
    · rename_i h
      subst hL
      unfold stripWs
      rw [List.filter_append, List.filter_cons]
      rw [show (! isWs ' ') = false from by decide,
        if_neg (show ¬ (false = true) from by decide)]
      have hrec := ih (s.drop n).length
        (by rw [List.length_drop]; omega) (s.drop n) rfl
      unfold stripWs at hrec
      rw [hrec, ← List.filter_append, List.take_append_drop]
    · rfl

/-- Filtering out whitespace is the identity on whitespace-free text. -/
theorem stripWs_eq_self (s : List Char) (h : ∀ c ∈ s, isWs c = false) :
    stripWs s = s := by
  unfold stripWs
  rw [List.filter_eq_self]
  intro a ha
  rw [h a ha]
  rfl

/-- `parse(format(v))` for the hex field: parsing the upper-case padded
hex rendering back with radix 16 recovers `v`. -/
theorem parse_toHex (v bits : Nat) :
    parseFromBase (toHex v bits) 16 = some (v : Int) := by
  have hvalid : ∀ c ∈ toHex v bits, ∃ d, rawDigitVal c = some d ∧ d < 16 := by
    intro c hc
    rcases padLeft_chars _ _ c hc with rfl | hc2
    · exact ⟨0, by decide, by omega⟩
    · exact jsToString_upper_chars_valid 16 (by omega) (by omega) v c hc2
  have hne : toHex v bits ≠ [] :=
    padLeft_ne_nil _ _ (by
      rw [Ne, List.map_eq_nil]
      exact jsToString_ne_nil v 16)
  unfold parseFromBase
  rw [if_neg hne]
  rw [trimChars_eq_self _ (fun c hc =>
    (fun h => isWs_false_of_rawDigit c h.choose h.choose_spec.1) (hvalid c hc))]
  cases hlist : toHex v bits with
  | nil => exact absurd hlist hne
  | cons c cs =>
    rw [parseIntJs_all_digits 16 (by omega) c cs (hlist ▸ hvalid)]
    rw [← hlist]
    unfold toHex padLeft
    rw [parseDigitsAux_zeros 16 (by omega),
      parseDigitsAux_jsToString_upper 16 (by omega) (by omega) v]

/-- `parse(format(v))` for the binary field: stripping whitespace from
the grouped binary rendering and parsing with radix 2 recovers `v`. -/
theorem parse_toBin (v bits : Nat) :
    parseFromBase (stripWs (groupEvery (toBin v bits) 4)) 2 =
      some (v : Int) := by
  have hvalid : ∀ c ∈ toBin v bits, ∃ d, rawDigitVal c = some d ∧ d < 2 := by
    intro c hc
    rcases padLeft_chars _ _ c hc with rfl | hc2
    · exact ⟨0, by decide, by omega⟩
    · exact jsToString_chars_valid 2 (by omega) (by omega) v c hc2
  have hnws : ∀ c ∈ toBin v bits, isWs c = false := fun c hc =>
    (fun h => isWs_false_of_rawDigit c h.choose h.choose_spec.1) (hvalid c hc)
  have hstrip : stripWs (groupEvery (toBin v bits) 4) = toBin v bits := by
    unfold groupEvery
    rw [stripWs_trimChars, stripWs_groupChunks, stripWs_eq_self _ hnws]
  rw [hstrip]
  have hne : toBin v bits ≠ [] :=
    padLeft_ne_nil _ _ (jsToString_ne_nil v 2)
  unfold parseFromBase
  rw [if_neg hne]
  rw [trimChars_eq_self _ hnws]
  cases hlist : toBin v bits with
  | nil => exact absurd hlist hne
  | cons c cs =>
    rw [parseIntJs_all_digits 2 (by omega) c cs (hlist ▸ hvalid)]
    rw [← hlist]
    unfold toBin padLeft
    rw [parseDigitsAux_zeros 2 (by omega),
      parseDigitsAux_jsToString 2 (by omega) (by omega) v]

/-- `parse(format(v))` for the decimal field: `Number` on the decimal
rendering recovers `v`. -/
theorem parse_decimal (v : Nat) :
    jsNumberOfDecimalDigits (jsToString v 10) = some (v : Int) := by
  have hdig : ∀ c ∈ jsToString v 10, c.isDigit = true := by
    intro c hc
    unfold jsToString at hc
    split at hc
    · rw [List.mem_singleton] at hc
      subst hc
      decide
    · rw [List.mem_map] at hc
      obtain ⟨d, hd, rfl⟩ := hc
      exact isDigit_digitCharLower d
        (Nat.digits_lt_base (by omega) (List.mem_reverse.mp hd))
  unfold jsNumberOfDecimalDigits
  rw [if_pos ⟨jsToString_ne_nil v 10, List.all_eq_true.mpr hdig⟩]
  rw [parseDigitsAux_jsToString 10 (by omega) (by omega) v]

/-- C4: for bits in the set 8, 16, 32 and `v` in `[0, 2 ^ bits - 1]`,
parsing the formatted value back in the same base recovers `v` for each
of the three fields: `Number` on the decimal rendering, `parseInt` with
radix 16 on the zero-padded upper-case hex rendering, and `parseInt`
with radix 2 on the grouped binary rendering after the whitespace
stripping done by `setFromBinary`. -/
theorem C4_parse_format_roundtrip (bits v : Nat)
    (hb : bits = 8 ∨ bits = 16 ∨ bits = 32) (hv : v ≤ 2 ^ bits - 1) :
    jsNumberOfDecimalDigits (jsToString v 10) = some (v : Int) ∧
      parseFromBase (toHex v bits) 16 = some (v : Int) ∧
      parseFromBase (stripWs (groupEvery (toBin v bits) 4)) 2 =
        some (v : Int) :=
  ⟨parse_decimal v, parse_toHex v bits, parse_toBin v bits⟩

/-- Witness for C4 at `bits = 8`, `v = 200` (hex C8, binary 1100 1000). -/
theorem C4_witness :
    jsNumberOfDecimalDigits (jsToString 200 10) = some 200 ∧
      parseFromBase (toHex 200 8) 16 = some 200 ∧
      parseFromBase (stripWs (groupEvery (toBin 200 8) 4)) 2 = some 200 :=
  C4_parse_format_roundtrip 8 200 (Or.inl rfl) (by decide)

end NumberTextLab
